import Mathlib

set_option maxHeartbeats 1000000

/-!
Shallow embedding of `news_bot.py` (PENC-Daily-News): a daily news-digest bot
that collects feed entries per keyword, filters them by recency and by a
stock-jargon noise list, deduplicates by link, summarizes via an external
generative service, and emails the result.

Machine strings are modelled as `String` / `List Char`; instants in time are
modelled as `Int` seconds (the code compares `datetime` values, which is a
total order on instants); the RFC-2822 date parser `parsedate_to_datetime`
(together with the timezone normalization around it) is modelled as an
abstract parameter `parse : String → Option Int`, where `none` stands for a
parse failure (the `except:` branch) and `some t` for a successful parse to
the UTC instant `t`. Network effects (feed fetch, the generative call, SMTP)
are modelled as function parameters; the pipeline logic around them is
embedded faithfully from the source.
-/

/-- Does the pattern occur at the head of the list?  (Left-anchored substring
test on character lists; building block for Python's `in` on `str`.) -/
def leadsWith : List Char → List Char → Bool
  | [], _ => true
  | _ :: _, [] => false
  | a :: ps, b :: l => (a == b) && leadsWith ps l

/-- Python's `needle in haystack` on strings: contiguous-substring test. -/
def chContains (p : List Char) : List Char → Bool
  | [] => leadsWith p []
  | c :: l => leadsWith p (c :: l) || chContains p l

/-- Worker for `removeAll`: while the first argument is positive, characters
are still being discarded as the tail of a matched pattern occurrence. -/
def removeAllGo (p : List Char) : Nat → List Char → List Char
  | _, [] => []
  | skip + 1, _ :: l => removeAllGo p skip l
  | 0, c :: l =>
    if p ≠ [] ∧ leadsWith p (c :: l) then
      removeAllGo p (p.length - 1) l
    else
      c :: removeAllGo p 0 l

/-- Python's `haystack.replace(pattern, "")`: scan left to right; whenever the
pattern occurs at the current position, drop it and continue after it;
otherwise keep the character and advance by one. -/
def removeAll (p l : List Char) : List Char :=
  removeAllGo p 0 l

/-- Characters stripped by Python's `str.strip()` (the ASCII whitespace set;
`'\x0b'` and `'\x0c'` written via `Char.ofNat`). -/
def isSpaceCh (c : Char) : Bool :=
  c == ' ' || c == '\t' || c == '\n' || c == '\r' ||
    c == Char.ofNat 11 || c == Char.ofNat 12

/-- Python's `str.strip()` on a character list. -/
def trimCh (l : List Char) : List Char :=
  ((l.dropWhile isSpaceCh).reverse.dropWhile isSpaceCh).reverse

/-- Python's `str.split(',')` on a character list: `""` splits to `[""]`,
and every comma separates two (possibly empty) fields. -/
def splitOnComma : List Char → List (List Char)
  | [] => [[]]
  | c :: rest =>
    match splitOnComma rest with
    | [] => [[]]
    | g :: gs => if c == ',' then [] :: g :: gs else (c :: g) :: gs

/-- The fixed keyword list `KEYWORDS` of `news_bot.py`. -/
def KEYWORDS : List String :=
  ["포스코이앤씨",
   "건설 원자재 가격",
   "공정위 하도급 건설",
   "건설 중대재해처벌법",
   "건설사 협력사 ESG",
   "주요 건설사 구매 동향",
   "건설 자재 환율 유가",
   "해상 운임 SCFI 건설",
   "스마트 건설 모듈러 OSC",
   "건설 현장 인력난 외국인",
   "건설 노조 파업 노란봉투법",
   "납품대금 연동제 건설",
   "건설산업기본법 개정",
   "화물연대 레미콘 운송 파업"]

/-- The fixed stock/market-jargon exclusion list `EXCLUDE_KEYWORDS`. -/
def EXCLUDE_KEYWORDS : List String :=
  ["특징주", "테마주", "관련주", "주가", "급등", "급락", "상한가", "하한가",
   "거래량", "매수", "매도", "목표가", "체결", "증시", "종목", "투자자",
   "지수", "코스피", "코스닥", "마감"]

/-- `is_stock_noise(title)`: does the title contain any banned substring? -/
def is_stock_noise (title : String) : Bool :=
  EXCLUDE_KEYWORDS.any fun w => chContains w.data title.data

/-- `is_recent(published_str)`: `if not published_str: return False`; then try
to parse; a successful parse at instant `pub_date` is compared strictly
against `now - timedelta(hours=24)`; a parse failure (`except:`) yields
`True`. -/
def is_recent (parse : String → Option Int) (now : Int) (published_str : String) : Bool :=
  if published_str.isEmpty then false
  else
    match parse published_str with
    | some pub_date => decide (now - 86400 < pub_date)
    | none => true

/-- One feed entry as consumed by `fetch_news` (`entry.title`, `entry.link`,
`entry.published`). -/
structure Entry where
  title : String
  link : String
  published : String
  deriving DecidableEq

/-- One collected article candidate: the dict appended by `fetch_news`. -/
structure NewsItem where
  title : String
  link : String
  keyword : String
  date : String
  deriving DecidableEq

/-- The dict literal `{"title": ..., "link": ..., "keyword": ..., "date": ...}`
built from a feed entry in `fetch_news`. -/
def mkNewsItem (kw : String) (e : Entry) : NewsItem :=
  ⟨e.title, e.link, kw, e.published⟩

/-- The body of the inner loop of `fetch_news` for one entry: recency filter,
then noise filter (`continue`), then the link-dedup check
`not any(item['link'] == entry.link for item in news_items)`, then append. -/
def considerEntry (parse : String → Option Int) (now : Int) (kw : String)
    (acc : List NewsItem) (e : Entry) : List NewsItem :=
  if is_recent parse now e.published then
    if is_stock_noise e.title then acc
    else if acc.any fun item => item.link == e.link then acc
    else acc ++ [mkNewsItem kw e]
  else acc

/-- The inner loop of `fetch_news` over the entries of one keyword. -/
def processEntries (parse : String → Option Int) (now : Int) (kw : String) :
    List NewsItem → List Entry → List NewsItem
  | acc, [] => acc
  | acc, e :: es => processEntries parse now kw (considerEntry parse now kw acc e) es

/-- The outer loop of `fetch_news` over keyword batches; each batch supplies
the keyword and its feed's entry list, of which only `entries[:3]` is used. -/
def fetchNewsAux (parse : String → Option Int) (now : Int) :
    List NewsItem → List (String × List Entry) → List NewsItem
  | acc, [] => acc
  | acc, (kw, es) :: bs =>
      fetchNewsAux parse now (processEntries parse now kw acc (es.take 3)) bs

/-- `fetch_news` run on an explicit list of keyword batches, starting from the
empty accumulator `news_items = []`. -/
def fetchNewsOn (parse : String → Option Int) (now : Int)
    (batches : List (String × List Entry)) : List NewsItem :=
  fetchNewsAux parse now [] batches

/-- `fetch_news()`: iterate the configured `KEYWORDS` in order, obtaining each
keyword's feed entry list from the feed oracle `feed`. -/
def fetch_news (parse : String → Option Int) (now : Int)
    (feed : String → List Entry) : List NewsItem :=
  fetchNewsOn parse now (KEYWORDS.map fun kw => (kw, feed kw))

/-- Stripping of fenced-code delimiters performed on the generative service's
response: `.replace("```html", "").replace("```", "")`. -/
def stripMarkers (l : List Char) : List Char :=
  removeAll ("```".data) (removeAll ("```html".data) l)

/-- String-level wrapper of `stripMarkers`. -/
def stripResponse (s : String) : String :=
  String.mk (stripMarkers s.data)

/-- One line of `news_text` built in `generate_report`:
`f"[{idx+1}] {item['title']} (키워드: {item['keyword']}) | Link: {item['link']}\n"`. -/
def news_line (idx : Nat) (item : NewsItem) : String :=
  "[" ++ toString (idx + 1) ++ "] " ++ item.title ++ " (키워드: " ++ item.keyword
    ++ ") | Link: " ++ item.link ++ "\n"

/-- The `news_text` accumulation of `generate_report`. -/
def news_text (items : List NewsItem) : String :=
  String.join ((items.enum).map fun p => news_line p.1 p.2)

/-- `generate_report(news_items)`.  The external generative call (prompt
template plus `model.generate_content`) is modelled by the oracle
`callService` applied to the assembled news text: `some t` is a successful
response with text `t`, `none` a raised exception (the `except` branch, which
returns `None`).  The second component records whether the external service
was contacted at all; the `if not news_items: return None` guard returns
before any contact. -/
def generate_report (callService : String → Option String)
    (items : List NewsItem) : Option String × Bool :=
  if items.isEmpty then (none, false)
  else
    match callService (news_text items) with
    | some t => (some (stripResponse t), true)
    | none => (none, true)

/-- Observable actions of one `__main__` run (with the API key present):
whether the Summarizer's external service was contacted, and whether an email
delivery was attempted. -/
structure RunTrace where
  summarizerCalled : Bool
  deliveryAttempted : Bool
  deriving DecidableEq

/-- The `__main__` pipeline after `fetch_news`: `if items:` guards the call to
`generate_report`; `if report_html:` guards the call to `send_email` (which
itself returns immediately on a falsy body, so delivery is attempted exactly
when the report is a non-empty string). -/
def run_pipeline (callService : String → Option String)
    (items : List NewsItem) : RunTrace :=
  if items.isEmpty then ⟨false, false⟩
  else
    let r := generate_report callService items
    ⟨r.2, match r.1 with | some html => !html.isEmpty | none => false⟩

/-- The recipient-list derivation in `send_email`:
`receivers = [r.strip() for r in EMAIL_RECEIVERS.split(',')]`. -/
def receivers (cfg : String) : List String :=
  (splitOnComma cfg.data).map fun r => String.mk (trimCh r)

/-- The backtick character (code point 96). -/
def tick : Char := Char.ofNat 96

/-- The triple-backtick delimiter as a character list. -/
def fence : List Char := [tick, tick, tick]

/-! ### Basic lemmas on the string utilities -/

theorem chContains_cons (p : List Char) (c : Char) (l : List Char) :
    chContains p (c :: l) = (leadsWith p (c :: l) || chContains p l) := rfl

theorem leadsWith_append_left : ∀ (p q l : List Char),
    leadsWith (p ++ q) l = true → leadsWith p l = true := by
  intro p
  induction p with
  | nil => intro q l _; rfl
  | cons a ps ih =>
    intro q l h
    cases l with
    | nil => simp [leadsWith] at h
    | cons b l' =>
      simp only [List.cons_append, leadsWith, Bool.and_eq_true] at h ⊢
      exact ⟨h.1, ih q l' h.2⟩

theorem chContains_append_left : ∀ (p q l : List Char),
    chContains (p ++ q) l = true → chContains p l = true := by
  intro p q l
  induction l with
  | nil => exact fun h => leadsWith_append_left p q [] h
  | cons c l' ih =>
    intro h
    rw [chContains_cons, Bool.or_eq_true] at h ⊢
    rcases h with h | h
    · exact Or.inl (leadsWith_append_left p q _ h)
    · exact Or.inr (ih h)

theorem removeAllGo_skip (p : List Char) : ∀ (k : Nat) (l : List Char),
    removeAllGo p k l = removeAllGo p 0 (List.drop k l) := by
  intro k
  induction k with
  | zero => intro l; rw [List.drop_zero]
  | succ k ih =>
    intro l
    cases l with
    | nil => rfl
    | cons c l' =>
      show removeAllGo p k l' = removeAllGo p 0 (List.drop (k + 1) (c :: l'))
      rw [List.drop_succ_cons]
      exact ih l'

theorem removeAllGo_zero_cons (p : List Char) (c : Char) (l : List Char) :
    removeAllGo p 0 (c :: l) =
      if p ≠ [] ∧ leadsWith p (c :: l) then
        removeAllGo p (p.length - 1) l
      else
        c :: removeAllGo p 0 l := rfl

theorem removeAll_cons_pos (p : List Char) (c : Char) (l : List Char)
    (hp : p ≠ []) (h : leadsWith p (c :: l) = true) :
    removeAll p (c :: l) = removeAll p (List.drop (p.length - 1) l) := by
  unfold removeAll
  rw [removeAllGo_zero_cons, if_pos ⟨hp, h⟩, removeAllGo_skip]

theorem removeAll_cons_neg (p : List Char) (c : Char) (l : List Char)
    (h : leadsWith p (c :: l) = false) :
    removeAll p (c :: l) = c :: removeAll p l := by
  unfold removeAll
  rw [removeAllGo_zero_cons, if_neg]
  intro hc
  rw [h] at hc
  exact Bool.false_ne_true hc.2

theorem removeAll_id_of_not_contains : ∀ (p l : List Char),
    chContains p l = false → removeAll p l = l := by
  intro p l
  induction l with
  | nil => intro _; rfl
  | cons c l' ih =>
    intro h
    rw [chContains_cons, Bool.or_eq_false_iff] at h
    rw [removeAll_cons_neg p c l' h.1, ih h.2]

/-! ### The triple-backtick delimiter cannot survive its own removal -/

theorem fence_lit : "```".data = fence := by decide

theorem fenceHtml_lit : "```html".data = fence ++ "html".data := by decide

theorem leadsWith_fence (c : Char) (l : List Char) :
    leadsWith fence (c :: l) = ((tick == c) && leadsWith [tick, tick] l) := rfl

theorem leadsWith_two (c : Char) (l : List Char) :
    leadsWith [tick, tick] (c :: l) = ((tick == c) && leadsWith [tick] l) := rfl

theorem leadsWith_one (c : Char) (l : List Char) :
    leadsWith [tick] (c :: l) = ((tick == c) && true) := rfl

theorem removeAll_fence_core : ∀ (n : Nat) (l : List Char), l.length ≤ n →
    chContains fence (removeAll fence l) = false ∧
    (leadsWith [tick, tick] l = false → leadsWith [tick, tick] (removeAll fence l) = false) ∧
    (leadsWith [tick] l = false → leadsWith [tick] (removeAll fence l) = false) := by
  intro n
  induction n with
  | zero =>
    intro l hl
    have hnil : l = [] := List.length_eq_zero.mp (Nat.le_zero.mp hl)
    subst hnil
    exact ⟨rfl, fun _ => rfl, fun _ => rfl⟩
  | succ n ih =>
    intro l hl
    cases l with
    | nil => exact ⟨rfl, fun _ => rfl, fun _ => rfl⟩
    | cons c l' =>
      have hl' : l'.length ≤ n := by
        simp only [List.length_cons] at hl
        omega
      by_cases hf : leadsWith fence (c :: l') = true
      · -- a delimiter occurrence starts here: it is removed wholesale
        have hrw : removeAll fence (c :: l') = removeAll fence (List.drop 2 l') := by
          have h := removeAll_cons_pos fence c l' (by decide) hf
          simpa using h
        have hd : (List.drop 2 l').length ≤ n := by
          have h := List.length_drop 2 l'
          omega
        have IH := ih (List.drop 2 l') hd
        have hc : (tick == c) = true ∧ leadsWith [tick, tick] l' = true := by
          rw [leadsWith_fence, Bool.and_eq_true] at hf
          exact hf
        refine ⟨hrw ▸ IH.1, ?_, ?_⟩
        · intro h2
          exfalso
          have h1 : leadsWith [tick] l' = true :=
            leadsWith_append_left [tick] [tick] l' hc.2
          rw [leadsWith_two, hc.1, h1] at h2
          exact absurd h2 (by simp)
        · intro h1
          exfalso
          rw [leadsWith_one, hc.1, Bool.true_and] at h1
          exact absurd h1 (by simp)
      · -- no delimiter occurrence starts here: the head character is kept
        have hf' : leadsWith fence (c :: l') = false := by simpa using hf
        have hrw : removeAll fence (c :: l') = c :: removeAll fence l' :=
          removeAll_cons_neg fence c l' hf'
        have IH := ih l' hl'
        rw [hrw]
        refine ⟨?_, ?_, ?_⟩
        · rw [chContains_cons, IH.1, Bool.or_false, leadsWith_fence]
          by_cases hc : (tick == c) = true
          · have h2 : leadsWith [tick, tick] l' = false := by
              rw [leadsWith_fence, hc, Bool.true_and] at hf'
              exact hf'
            rw [hc, Bool.true_and]
            exact IH.2.1 h2
          · have hc' : (tick == c) = false := by simpa using hc
            rw [hc', Bool.false_and]
        · intro h2
          rw [leadsWith_two] at h2 ⊢
          by_cases hc : (tick == c) = true
          · rw [hc, Bool.true_and] at h2 ⊢
            exact IH.2.2 h2
          · have hc' : (tick == c) = false := by simpa using hc
            rw [hc', Bool.false_and]
        · intro h1
          rw [leadsWith_one] at h1 ⊢
          rw [Bool.and_true] at h1 ⊢
          rw [h1]

theorem removeAll_fence_no_fence (l : List Char) :
    chContains fence (removeAll fence l) = false :=
  (removeAll_fence_core l.length l le_rfl).1

/-! ### Collector lemmas -/

theorem considerEntry_cases (parse : String → Option Int) (now : Int) (kw : String)
    (acc : List NewsItem) (e : Entry) :
    considerEntry parse now kw acc e = acc ∨
      considerEntry parse now kw acc e = acc ++ [mkNewsItem kw e] := by
  unfold considerEntry
  split
  · split
    · exact Or.inl rfl
    · split
      · exact Or.inl rfl
      · exact Or.inr rfl
  · exact Or.inl rfl

theorem considerEntry_dup (parse : String → Option Int) (now : Int) (kw : String)
    (acc : List NewsItem) (e : Entry)
    (h : (acc.any fun item => item.link == e.link) = true) :
    considerEntry parse now kw acc e = acc := by
  unfold considerEntry
  split
  · split
    · rfl
    · simp [h]
  · rfl

theorem considerEntry_nodup (parse : String → Option Int) (now : Int) (kw : String)
    (acc : List NewsItem) (e : Entry)
    (h : (acc.map NewsItem.link).Nodup) :
    ((considerEntry parse now kw acc e).map NewsItem.link).Nodup := by
  unfold considerEntry
  split
  · split
    · exact h
    · split
      · exact h
      · rename_i hany
        rw [List.map_append]
        refine List.Nodup.append h (List.nodup_singleton _) ?_
        intro a ha hb
        rw [List.map_singleton, List.mem_singleton] at hb
        obtain ⟨item, hitem, hlink⟩ := List.mem_map.mp ha
        apply hany
        rw [List.any_eq_true]
        refine ⟨item, hitem, ?_⟩
        rw [beq_iff_eq, hlink, hb]
        rfl
  · exact h

theorem processEntries_nodup (parse : String → Option Int) (now : Int) (kw : String) :
    ∀ (es : List Entry) (acc : List NewsItem),
      (acc.map NewsItem.link).Nodup →
      ((processEntries parse now kw acc es).map NewsItem.link).Nodup := by
  intro es
  induction es with
  | nil => exact fun acc h => h
  | cons e es ih =>
    intro acc h
    exact ih (considerEntry parse now kw acc e) (considerEntry_nodup parse now kw acc e h)

theorem fetchNewsAux_nodup (parse : String → Option Int) (now : Int) :
    ∀ (batches : List (String × List Entry)) (acc : List NewsItem),
      (acc.map NewsItem.link).Nodup →
      ((fetchNewsAux parse now acc batches).map NewsItem.link).Nodup := by
  intro batches
  induction batches with
  | nil => exact fun acc h => h
  | cons b bs ih =>
    intro acc h
    obtain ⟨kw, es⟩ := b
    exact ih (processEntries parse now kw acc (es.take 3))
      (processEntries_nodup parse now kw (es.take 3) acc h)

theorem considerEntry_noise_free (parse : String → Option Int) (now : Int) (kw : String)
    (acc : List NewsItem) (e : Entry)
    (hacc : ∀ it ∈ acc, is_stock_noise it.title = false) :
    ∀ it ∈ considerEntry parse now kw acc e, is_stock_noise it.title = false := by
  intro it hit
  unfold considerEntry at hit
  split at hit
  · split at hit
    · exact hacc it hit
    · split at hit
      · exact hacc it hit
      · rename_i hnoise hdup
        rcases List.mem_append.mp hit with hin | hin
        · exact hacc it hin
        · rw [List.mem_singleton] at hin
          subst hin
          simpa using hnoise
  · exact hacc it hit

theorem processEntries_noise_free (parse : String → Option Int) (now : Int) (kw : String) :
    ∀ (es : List Entry) (acc : List NewsItem),
      (∀ it ∈ acc, is_stock_noise it.title = false) →
      ∀ it ∈ processEntries parse now kw acc es, is_stock_noise it.title = false := by
  intro es
  induction es with
  | nil => exact fun acc h => h
  | cons e es ih =>
    intro acc h
    exact ih (considerEntry parse now kw acc e)
      (considerEntry_noise_free parse now kw acc e h)

theorem fetchNewsAux_noise_free (parse : String → Option Int) (now : Int) :
    ∀ (batches : List (String × List Entry)) (acc : List NewsItem),
      (∀ it ∈ acc, is_stock_noise it.title = false) →
      ∀ it ∈ fetchNewsAux parse now acc batches, is_stock_noise it.title = false := by
  intro batches
  induction batches with
  | nil => exact fun acc h => h
  | cons b bs ih =>
    intro acc h
    obtain ⟨kw, es⟩ := b
    exact ih (processEntries parse now kw acc (es.take 3))
      (processEntries_noise_free parse now kw (es.take 3) acc h)

theorem processEntries_append_only (parse : String → Option Int) (now : Int) (kw : String) :
    ∀ (es : List Entry) (acc : List NewsItem),
      ∃ t, processEntries parse now kw acc es = acc ++ t := by
  intro es
  induction es with
  | nil => exact fun acc => ⟨[], by simp [processEntries]⟩
  | cons e es ih =>
    intro acc
    obtain ⟨t, ht⟩ := ih (considerEntry parse now kw acc e)
    rcases considerEntry_cases parse now kw acc e with h | h
    · refine ⟨t, ?_⟩
      show processEntries parse now kw (considerEntry parse now kw acc e) es = acc ++ t
      rw [ht, h]
    · refine ⟨mkNewsItem kw e :: t, ?_⟩
      show processEntries parse now kw (considerEntry parse now kw acc e) es
        = acc ++ (mkNewsItem kw e :: t)
      rw [ht, h]
      simp

theorem fetchNewsAux_append_only (parse : String → Option Int) (now : Int) :
    ∀ (batches : List (String × List Entry)) (acc : List NewsItem),
      ∃ t, fetchNewsAux parse now acc batches = acc ++ t := by
  intro batches
  induction batches with
  | nil => exact fun acc => ⟨[], by simp [fetchNewsAux]⟩
  | cons b bs ih =>
    intro acc
    obtain ⟨kw, es⟩ := b
    obtain ⟨t1, ht1⟩ := processEntries_append_only parse now kw (es.take 3) acc
    obtain ⟨t2, ht2⟩ := ih (processEntries parse now kw acc (es.take 3))
    refine ⟨t1 ++ t2, ?_⟩
    show fetchNewsAux parse now (processEntries parse now kw acc (es.take 3)) bs
      = acc ++ (t1 ++ t2)
    rw [ht2, ht1]
    simp

theorem fetchNewsAux_batches_append (parse : String → Option Int) (now : Int) :
    ∀ (batches bs : List (String × List Entry)) (acc : List NewsItem),
      fetchNewsAux parse now acc (batches ++ bs) =
        fetchNewsAux parse now (fetchNewsAux parse now acc batches) bs := by
  intro batches
  induction batches with
  | nil => exact fun bs acc => rfl
  | cons b batches ih =>
    intro bs acc
    obtain ⟨kw, es⟩ := b
    exact ih bs (processEntries parse now kw acc (es.take 3))

theorem considerEntry_length (parse : String → Option Int) (now : Int) (kw : String)
    (acc : List NewsItem) (e : Entry) :
    (considerEntry parse now kw acc e).length ≤ acc.length + 1 := by
  rcases considerEntry_cases parse now kw acc e with h | h <;> rw [h] <;> simp

theorem processEntries_length (parse : String → Option Int) (now : Int) (kw : String) :
    ∀ (es : List Entry) (acc : List NewsItem),
      (processEntries parse now kw acc es).length ≤ acc.length + es.length := by
  intro es
  induction es with
  | nil => intro acc; simp [processEntries]
  | cons e es ih =>
    intro acc
    have h1 := considerEntry_length parse now kw acc e
    have h2 := ih (considerEntry parse now kw acc e)
    show (processEntries parse now kw (considerEntry parse now kw acc e) es).length
      ≤ acc.length + (e :: es).length
    simp only [List.length_cons]
    omega

theorem fetchNewsAux_length (parse : String → Option Int) (now : Int) :
    ∀ (batches : List (String × List Entry)) (acc : List NewsItem),
      (fetchNewsAux parse now acc batches).length ≤ acc.length + 3 * batches.length := by
  intro batches
  induction batches with
  | nil => intro acc; simp [fetchNewsAux]
  | cons b bs ih =>
    intro acc
    obtain ⟨kw, es⟩ := b
    have h1 := processEntries_length parse now kw (es.take 3) acc
    have h3 : (es.take 3).length ≤ 3 := by
      rw [List.length_take]
      exact Nat.min_le_left 3 es.length
    have h2 := ih (processEntries parse now kw acc (es.take 3))
    show (fetchNewsAux parse now (processEntries parse now kw acc (es.take 3)) bs).length
      ≤ acc.length + 3 * ((kw, es) :: bs).length
    simp only [List.length_cons]
    omega

theorem fetchNewsAux_take3 (parse : String → Option Int) (now : Int) :
    ∀ (batches : List (String × List Entry)) (acc : List NewsItem),
      fetchNewsAux parse now acc (batches.map fun b => (b.1, b.2.take 3)) =
        fetchNewsAux parse now acc batches := by
  intro batches
  induction batches with
  | nil => exact fun acc => rfl
  | cons b bs ih =>
    intro acc
    obtain ⟨kw, es⟩ := b
    show fetchNewsAux parse now (processEntries parse now kw acc ((es.take 3).take 3))
        (bs.map fun b => (b.1, b.2.take 3))
      = fetchNewsAux parse now (processEntries parse now kw acc (es.take 3)) bs
    rw [List.take_take, Nat.min_self]
    exact ih (processEntries parse now kw acc (es.take 3))

/-! ### Claim theorems -/

/-- C1 counterexample: the claim says an entry whose published timestamp fails
to parse — including an empty timestamp string — is retained.  In the code,
`is_recent` starts with `if not published_str: return False`, so an entry with
an empty timestamp string is discarded: `is_recent` returns `False` on `""`
(here at a concrete run time and with a parser that fails on every input). -/
theorem C1_empty_discarded : is_recent (fun _ => none) 0 "" = false := rfl

/-- C1 (amended): an entry whose published timestamp string is non-empty and
fails to parse is retained (`is_recent` returns `true`, the fail-open
`except:` branch); an entry whose timestamp string is empty is discarded
(`is_recent` returns `false`). -/
theorem C1_fail_open (parse : String → Option Int) (now : Int) :
    (∀ s, s.isEmpty = false → parse s = none → is_recent parse now s = true) ∧
    is_recent parse now "" = false := by
  constructor
  · intro s hs hp
    unfold is_recent
    rw [if_neg (by simp [hs]), hp]
  · rfl

/-- Witness for C1 (amended) at the non-empty unparseable string `"x"`. -/
theorem C1_fail_open_witness : is_recent (fun _ => none) 0 "x" = true :=
  (C1_fail_open (fun _ => none) 0).1 "x" (by decide) rfl

/-- C2: within one run of the Collector no two retained items share a `link`
(the mapped link list is duplicate-free, for every input batch list), and a
candidate entry whose `link` equals the `link` of an item already accumulated
leaves the accumulated list unchanged (it is not appended). -/
theorem C2_dedup (parse : String → Option Int) (now : Int) :
    (∀ batches, ((fetchNewsOn parse now batches).map NewsItem.link).Nodup) ∧
    (∀ kw acc e, (acc.any fun item => item.link == e.link) = true →
      considerEntry parse now kw acc e = acc) := by
  constructor
  · intro batches
    exact fetchNewsAux_nodup parse now batches [] (by simp)
  · intro kw acc e h
    exact considerEntry_dup parse now kw acc e h

/-- Witness for C2: a second candidate carrying the already-retained link
`"l"` is not appended. -/
theorem C2_dedup_witness :
    considerEntry (fun _ => none) 0 "k" [⟨"t", "l", "k", "p"⟩] ⟨"t2", "l", "p2"⟩
      = [⟨"t", "l", "k", "p"⟩] :=
  (C2_dedup (fun _ => none) 0).2 "k" [⟨"t", "l", "k", "p"⟩] ⟨"t2", "l", "p2"⟩ (by decide)

/-- C3: with zero collected items the pipeline short-circuits.
`generate_report` applied to the empty list returns no document without
contacting the external generative service, and the `__main__` run neither
calls the Summarizer's service nor attempts a delivery. -/
theorem C3_short_circuit (callService : String → Option String) :
    generate_report callService [] = (none, false) ∧
    run_pipeline callService [] = ⟨false, false⟩ :=
  ⟨rfl, rfl⟩

/-- C4: for an entry whose (non-empty) published timestamp parses to the
instant `pub`, the recency filter admits it exactly when `pub` is strictly
later than 24 hours (86400 seconds) before the run time `now`. -/
theorem C4_recency_window (parse : String → Option Int) (now pub : Int) (s : String)
    (hne : s.isEmpty = false) (hp : parse s = some pub) :
    is_recent parse now s = true ↔ now - 86400 < pub := by
  unfold is_recent
  rw [if_neg (by simp [hne]), hp]
  simp

/-- Witness for C4: a timestamp parsing to the run instant itself is admitted. -/
theorem C4_recency_window_witness : is_recent (fun _ => some 0) 0 "x" = true :=
  (C4_recency_window (fun _ => some 0) 0 0 "x" (by decide) rfl).mpr (by decide)

/-- C5: the Collector only ever looks at the first 3 entries of each keyword's
feed response (truncating every batch to its first 3 entries does not change
the output), the output has at most 3 items per batch, and a full
`fetch_news` run returns at most `3 * |KEYWORDS|` items. -/
theorem C5_bounded_fan_in (parse : String → Option Int) (now : Int) :
    (∀ batches, fetchNewsOn parse now (batches.map fun b => (b.1, b.2.take 3)) =
      fetchNewsOn parse now batches) ∧
    (∀ batches, (fetchNewsOn parse now batches).length ≤ 3 * batches.length) ∧
    (∀ feed, (fetch_news parse now feed).length ≤ 3 * KEYWORDS.length) := by
  refine ⟨fun batches => fetchNewsAux_take3 parse now batches [], fun batches => ?_,
    fun feed => ?_⟩
  · have h := fetchNewsAux_length parse now batches []
    simpa using h
  · have h := fetchNewsAux_length parse now (KEYWORDS.map fun kw => (kw, feed kw)) []
    simpa using h

/-- C6: every item in the Collector's output has a title containing none of
the excluded stock-jargon substrings; equivalently, an entry whose title
contains an excluded substring is never retained, regardless of recency. -/
theorem C6_noise_filter (parse : String → Option Int) (now : Int) :
    ∀ batches item, item ∈ fetchNewsOn parse now batches →
      is_stock_noise item.title = false := by
  intro batches item h
  exact fetchNewsAux_noise_free parse now batches [] (by simp) item h

/-- Witness for C6 on a one-entry batch whose item is retained. -/
theorem C6_noise_filter_witness :
    is_stock_noise (NewsItem.title ⟨"t", "l", "k", "p"⟩) = false :=
  C6_noise_filter (fun _ => none) 0 [("k", [⟨"t", "l", "p"⟩])] ⟨"t", "l", "k", "p"⟩
    (by decide)

/-- C7: after the Summarizer's post-processing
(`.replace("```html", "").replace("```", "")`) the stored document text
contains no triple-backtick delimiter substring. -/
theorem C7_no_fence_left (s : String) :
    chContains ("```".data) (stripResponse s).data = false := by
  rw [fence_lit]
  show chContains fence (stripMarkers s.data) = false
  unfold stripMarkers
  rw [fence_lit]
  exact removeAll_fence_no_fence (removeAll ("```html".data) s.data)

/-- C9: the Collector's output preserves construction order and is never
re-sorted: each entry consideration either leaves the accumulated list
unchanged or appends exactly the new item at the end; processing an entry
list or a batch list only ever appends a suffix to the accumulator; and the
batch loop processes keyword batches sequentially in order. -/
theorem C9_order_preserved (parse : String → Option Int) (now : Int) :
    (∀ kw acc e, considerEntry parse now kw acc e = acc ∨
        considerEntry parse now kw acc e = acc ++ [mkNewsItem kw e]) ∧
    (∀ kw es acc, ∃ t, processEntries parse now kw acc es = acc ++ t) ∧
    (∀ batches acc, ∃ t, fetchNewsAux parse now acc batches = acc ++ t) ∧
    (∀ batches bs acc, fetchNewsAux parse now acc (batches ++ bs) =
        fetchNewsAux parse now (fetchNewsAux parse now acc batches) bs) :=
  ⟨fun kw acc e => considerEntry_cases parse now kw acc e,
   fun kw es acc => processEntries_append_only parse now kw es acc,
   fun batches acc => fetchNewsAux_append_only parse now batches acc,
   fun batches bs acc => fetchNewsAux_batches_append parse now batches bs acc⟩

/-- C8: the Publisher's recipient list is the comma-split of the recipient
configuration string with each entry trimmed of surrounding whitespace; on
`"a@x.com, b@x.com"` it is exactly the two addresses, in order. -/
theorem C8_receivers_split_trim :
    receivers "a@x.com, b@x.com" = ["a@x.com", "b@x.com"] := by decide

/-- C10: the fenced-delimiter stripping performed on the generative service's
response is idempotent: applying it twice equals applying it once. -/
theorem C10_strip_idempotent (s : String) :
    stripResponse (stripResponse s) = stripResponse s := by
  have hfl : "```".data = fence := fence_lit
  have hu : chContains fence (stripMarkers s.data) = false := by
    unfold stripMarkers
    rw [hfl]
    exact removeAll_fence_no_fence (removeAll ("```html".data) s.data)
  have hu7 : chContains ("```html".data) (stripMarkers s.data) = false := by
    rw [fenceHtml_lit]
    cases hcc : chContains (fence ++ "html".data) (stripMarkers s.data)
    · rfl
    · exfalso
      have h := chContains_append_left fence ("html".data) (stripMarkers s.data) hcc
      rw [hu] at h
      exact Bool.false_ne_true h
  have hmain : stripMarkers (stripMarkers s.data) = stripMarkers s.data := by
    rw [show stripMarkers (stripMarkers s.data)
        = removeAll ("```".data) (removeAll ("```html".data) (stripMarkers s.data)) from rfl]
    rw [removeAll_id_of_not_contains ("```html".data) (stripMarkers s.data) hu7, hfl,
      removeAll_id_of_not_contains fence (stripMarkers s.data) hu]
  show String.mk (stripMarkers (stripMarkers s.data)) = String.mk (stripMarkers s.data)
  rw [hmain]
